import Mathlib

/-!
Verification of the porcus pig-latin core: a shallow embedding of the
repository's `latin.rs`, `char_type.rs`, `case.rs` and `pig_latin.rs` into
Lean, followed by theorems checking the natural-language specification.

Rust strings are modelled as `List Char` (Unicode scalar values). The
external Unicode primitives the crate consumes (script lookup, NFD
decomposition, grapheme segmentation, word-boundary segmentation,
per-character case predicates and case folding) are collected in a
`UnicodePrims` structure the embedded functions are parameterised over,
mirroring how the source treats them as library calls. A concrete instance
`asciiPrims`, faithful to real Unicode data on the characters it is applied
to, is used for concrete evaluations.
-/

namespace Porcus

/-- Rust `&str` and `String` are modelled as lists of Unicode scalar values. -/
abbrev Str := List Char

/-- External Unicode primitives consumed by the crate (from the
`unicode_script`, `unicode_normalization` and `unicode_segmentation`
crates, plus `char`/`str` case methods of the Rust standard library). -/
structure UnicodePrims where
  /-- Whether `c.script().full_name() == "Latin"`. -/
  isLatin : Char → Bool
  /-- Canonical decomposition of a string, `str::nfd`. -/
  nfd : Str → Str
  /-- Grapheme-cluster segmentation, `str::graphemes(true)`. -/
  graphemes : Str → List Str
  /-- Word-boundary segmentation, `str::split_word_bounds`. -/
  splitWordBounds : Str → List Str
  /-- Rust `char::is_uppercase`. -/
  isUpper : Char → Bool
  /-- Rust `char::is_lowercase`. -/
  isLower : Char → Bool
  /-- Rust `str::to_lowercase`. -/
  toLower : Str → Str
  /-- Rust `str::to_uppercase`. -/
  toUpper : Str → Str

/-! Embedding of `latin.rs`: the three constant codepoint sets. -/

/-- Latin-script letters which are always vowels (`latin.rs`, `VOWELS`). -/
def VOWELS : List Char := [
  'A', 'E', 'I', 'O', 'U', 'a', 'e', 'i', 'o', 'u',
  'ª', 'º', 'Æ', 'Ø', 'æ', 'ø', 'ı', 'Ĳ', 'ĳ', 'Œ',
  'œ', 'Ǝ', 'Ə', 'Ɛ', 'Ɩ', 'Ɨ', 'Ɵ', 'Ʊ', 'ǝ', 'Ⱥ',
  'Ȣ', 'ȣ', 'Ʉ', 'Ɇ', 'ɇ', 'ɐ', 'ɑ', 'ɒ', 'ɘ', 'ə',
  'ɚ', 'ɛ', 'ɜ', 'ɝ', 'ɞ', 'ɨ', 'ɩ', 'ɪ', 'ɵ', 'ɶ',
  'ɷ', 'ʉ', 'ʊ', 'ᴀ', 'ᴁ', 'ᴂ', 'ᴇ', 'ᴈ', 'ᴉ', 'ᴏ',
  'ᴐ', 'ᴑ', 'ᴒ', 'ᴓ', 'ᴔ', 'ᴕ', 'ᴖ', 'ᴗ', 'ᴜ', 'ᴝ',
  'ᴞ', 'ᵫ', 'ᵻ', 'ᵼ', 'ᵾ', 'ᵿ', 'ᶏ', 'ᶐ', 'ᶒ', 'ᶓ',
  'ᶔ', 'ᶕ', 'ᶖ', 'ᶗ', 'ᶙ', 'ẚ', 'ⁱ', 'ₐ', 'ₑ', 'ₒ',
  'ₔ', 'ⱥ', 'Ɑ', 'Ɐ', 'Ɒ', 'ⱸ', 'ⱺ', 'ⱻ', 'Ꜳ', 'ꜳ',
  'Ꜵ', 'ꜵ', 'Ꜷ', 'ꜷ', 'Ꜹ', 'ꜹ', 'Ꜻ', 'ꜻ', 'Ꜽ', 'ꜽ',
  'Ꝋ', 'ꝋ', 'Ꝍ', 'ꝍ', 'Ꝏ', 'ꝏ', 'Ꝫ', 'ꝫ', 'Ꝭ', 'ꝭ',
  'ꝸ', 'Ꞛ', 'ꞛ', 'Ꞝ', 'ꞝ', 'Ꞟ', 'ꞟ', 'Ɜ', 'Ɪ', 'Ꞷ',
  'ꞷ', 'Ꞹ', 'ꞹ', 'Ꞻ', 'ꞻ', 'Ꞽ', 'ꞽ', 'Ꞿ', 'ꞿ', 'ꟷ',
  'ꟹ', 'ꟾ', 'ꬰ', 'ꬱ', 'ꬲ', 'ꬳ', 'ꬴ', 'ꬽ', 'ꬾ', 'ꬿ',
  'ꭀ', 'ꭁ', 'ꭂ', 'ꭃ', 'ꭄ', 'ꭎ', 'ꭏ', 'ꭐ', 'ꭑ', 'ꭒ',
  'ꭠ', 'ꭡ', 'ꭢ', 'ꭣ', 'ꭤ', 'Ａ', 'Ｅ', 'Ｉ', 'Ｏ', 'Ｕ',
  'ａ', 'ｅ', 'ｉ', 'ｏ', 'ｕ']

/-- Latin-script letters which may be vowels, depending on context
(`latin.rs`, `AMBIGUOUS_VOWELS`). -/
def AMBIGUOUS_VOWELS : List Char := [
  'Y', 'y', 'Ƴ', 'ƴ', 'Ɏ', 'ɏ', 'ʎ', 'ʏ', 'Ỿ', 'ỿ',
  'Ｙ', 'ｙ', 'ꭚ']

/-- Punctuation to be treated as consonants for the purpose of Pig Latin
(`latin.rs`, `CONSONANT_LIKE_PUNCTUATION`). The first entry is the ASCII
apostrophe, U+0027. -/
def CONSONANT_LIKE_PUNCTUATION : List Char := [
  Char.ofNat 39, '’', '＇', '·', '՟', '״', '‧']

/-! Embedding of `char_type.rs`. -/

/-- Vowel-or-consonant classification of a grapheme (`char_type.rs`, `CharType`). -/
inductive CharType where
  | Vowel
  | Consonant
  | Ambiguous
  | NonLatin
  | Empty
deriving DecidableEq

/-- Embedding of `get_first_nfd_char_of_grapheme_at`:
`graphemes.get(index).and_then(|grapheme| grapheme.nfd().next())`. -/
def get_first_nfd_char_of_grapheme_at (U : UnicodePrims) (graphemes : List Str)
    (index : Nat) : Option Char :=
  (graphemes[index]?).bind (fun grapheme => (U.nfd grapheme).head?)

/-- Embedding of `get_char_type_at` (`char_type.rs`, lines 123-141). -/
def get_char_type_at (U : UnicodePrims) (graphemes : List Str) (index : Nat) :
    CharType :=
  match get_first_nfd_char_of_grapheme_at U graphemes index with
  | none => CharType.Empty
  | some first_char =>
    if VOWELS.contains first_char then CharType.Vowel
    else if AMBIGUOUS_VOWELS.contains first_char then CharType.Ambiguous
    else if CONSONANT_LIKE_PUNCTUATION.contains first_char then CharType.Consonant
    else if U.isLatin first_char then CharType.Consonant
    else CharType.NonLatin

/-! Embedding of `case.rs`. -/

/-- Case of a word (`case.rs`, `Case`). -/
inductive Case where
  | Lower
  | Upper
  | Sentence
  | Mixed
deriving DecidableEq

/-- Embedding of `detect_case` (`case.rs`, lines 92-106). The scrutinee
tuple and the patterns follow the source match exactly. -/
def detect_case (U : UnicodePrims) (s : Str) : Case :=
  match s with
  | [] => Case.Lower
  | first_char :: rest =>
    match !(U.isUpper first_char), !(U.isLower first_char),
        rest.all (fun c => !(U.isUpper c)), rest.all (fun c => !(U.isLower c)) with
    | true, _, true, _ => Case.Lower
    | _, true, true, _ => Case.Sentence
    | _, true, _, true => Case.Upper
    | _, _, _, _ => Case.Mixed

/-- Embedding of `to_sentence_case` (`case.rs`, lines 138-148): uppercase the
first grapheme cluster, lowercase the remainder of the underlying string. -/
def to_sentence_case (U : UnicodePrims) (s : Str) : Str :=
  match U.graphemes s with
  | [] => []
  | first_grapheme :: _ =>
    U.toUpper first_grapheme ++ U.toLower (s.drop first_grapheme.length)

/-- Embedding of `to_case` (`case.rs`, lines 128-136). -/
def to_case (U : UnicodePrims) (s : Str) (case : Case) : Str :=
  match case with
  | Case.Lower => U.toLower s
  | Case.Upper => U.toUpper s
  | Case.Sentence => to_sentence_case U s
  | Case.Mixed => s

/-! Embedding of `pig_latin.rs`. -/

/-- Transformer configuration (`pig_latin.rs`, `PigLatinTransformer`). -/
structure PigLatinTransformer where
  consonant_suffix : Str
  vowel_suffix : Str

/-- The default configuration: suffixes "ay" and "way" (`lib.rs`). -/
def defaultTransformer : PigLatinTransformer where
  consonant_suffix := "ay".toList
  vowel_suffix := "way".toList

/-- Embedding of `should_skip_word` (`pig_latin.rs`, lines 162-166):
skip when the unit is empty or its first character's script is not Latin. -/
def should_skip_word (U : UnicodePrims) (s : Str) : Bool :=
  match s with
  | [] => true
  | first_char :: _ => !(U.isLatin first_char)

/-- Embedding of `has_consonant_at` (`pig_latin.rs`, lines 168-177). -/
def has_consonant_at (U : UnicodePrims) (graphemes : List Str) (index : Nat) :
    Bool :=
  match get_char_type_at U graphemes index with
  | CharType.Consonant => true
  | CharType.Ambiguous =>
    match get_char_type_at U graphemes (index + 1) with
    | CharType.Vowel => true
    | _ => false
  | _ => false

/-- The `while has_consonant_at ... do prefix_length += 1` loop of
`word_to_uncased_pig_latin`, with an explicit fuel argument. The loop in the
source is unbounded; `scanFrom_fuel_ge` below shows any fuel of at least
`graphemes.length + 1` reproduces the loop's exit value, so the fuelled
function with that fuel is the loop's exact semantics. -/
def scanFrom (U : UnicodePrims) (graphemes : List Str) : Nat → Nat → Nat
  | 0, i => i
  | fuel + 1, i =>
    if has_consonant_at U graphemes i then scanFrom U graphemes fuel (i + 1)
    else i

/-- The consonant-prefix length computed by the scan loop of
`word_to_uncased_pig_latin` (`pig_latin.rs`, lines 143-146). -/
def consonant_prefix_length (U : UnicodePrims) (graphemes : List Str) : Nat :=
  scanFrom U graphemes (graphemes.length + 1) 0

/-- Embedding of `word_to_uncased_pig_latin` (`pig_latin.rs`, lines 140-159). -/
def word_to_uncased_pig_latin (U : UnicodePrims) (T : PigLatinTransformer)
    (s : Str) : Str :=
  let gs := U.graphemes s
  let pLen := consonant_prefix_length U gs
  if pLen = 0 then s ++ T.vowel_suffix
  else ((gs.drop pLen).flatten) ++ ((gs.take pLen).flatten) ++ T.consonant_suffix

/-- Embedding of `word_to_case_matched_pig_latin` (`pig_latin.rs`, lines 131-138). -/
def word_to_case_matched_pig_latin (U : UnicodePrims) (T : PigLatinTransformer)
    (s : Str) : Str :=
  if should_skip_word U s then s
  else to_case U (word_to_uncased_pig_latin U T s) (detect_case U s)

/-- Embedding of `to_pig_latin` (`pig_latin.rs`, lines 123-129). -/
def to_pig_latin (U : UnicodePrims) (T : PigLatinTransformer) (s : Str) : Str :=
  ((U.splitWordBounds s).map (word_to_case_matched_pig_latin U T)).flatten

/-! Concrete instance of the Unicode primitives, faithful to real Unicode
data on the characters it is applied to below: ASCII text (where NFD is the
identity, every grapheme cluster is a single character, only the letters
A-Z and a-z have script Latin, and word segmentation groups alphanumeric
runs and whitespace runs) together with the non-Latin-script punctuation
marks of `CONSONANT_LIKE_PUNCTUATION`. -/

/-- ASCII uppercase letter test; agrees with `char::is_uppercase` on ASCII. -/
def asciiIsUpperChar (c : Char) : Bool := 65 ≤ c.toNat && c.toNat ≤ 90

/-- ASCII lowercase letter test; agrees with `char::is_lowercase` on ASCII. -/
def asciiIsLowerChar (c : Char) : Bool := 97 ≤ c.toNat && c.toNat ≤ 122

/-- Unicode script-is-Latin test, restricted to a domain where only the
ASCII letters qualify. Correct for all ASCII characters and for the seven
marks of `CONSONANT_LIKE_PUNCTUATION` (scripts Common, Armenian, Hebrew). -/
def asciiIsLatin (c : Char) : Bool := asciiIsUpperChar c || asciiIsLowerChar c

/-- ASCII digit test. -/
def asciiIsDigit (c : Char) : Bool := 48 ≤ c.toNat && c.toNat ≤ 57

/-- Characters that UAX 29 word segmentation keeps inside a word run, in the
ASCII fragment used here. -/
def asciiIsWordChar (c : Char) : Bool := asciiIsLatin c || asciiIsDigit c

/-- ASCII lowercasing of one character. -/
def asciiToLowerChar (c : Char) : Char :=
  if asciiIsUpperChar c then Char.ofNat (c.toNat + 32) else c

/-- ASCII uppercasing of one character. -/
def asciiToUpperChar (c : Char) : Char :=
  if asciiIsLowerChar c then Char.ofNat (c.toNat - 32) else c

/-- One step of word-boundary grouping: extend the current leading unit when
the new character and the unit's first character are both word characters or
both spaces, otherwise open a new unit. -/
def joinUnit (c : Char) (acc : List Str) : List Str :=
  match acc with
  | (d :: u) :: us =>
    if (asciiIsWordChar c && asciiIsWordChar d) || (c == ' ' && d == ' ') then
      (c :: d :: u) :: us
    else [c] :: (d :: u) :: us
  | _ => [c] :: acc

/-- UAX 29 word-boundary segmentation on the ASCII fragment: maximal runs of
alphanumeric characters, maximal runs of spaces, all other characters alone. -/
def asciiSplitWordBounds (s : Str) : List Str := s.foldr joinUnit []

/-- The concrete Unicode-primitive instance described above. -/
def asciiPrims : UnicodePrims where
  isLatin := asciiIsLatin
  nfd := fun g => g
  graphemes := fun s => s.map (fun c => [c])
  splitWordBounds := asciiSplitWordBounds
  isUpper := asciiIsUpperChar
  isLower := asciiIsLowerChar
  toLower := fun s => s.map asciiToLowerChar
  toUpper := fun s => s.map asciiToUpperChar

/-! Spec-side descriptions used by refinement claims. -/

/-- Description of `detect_case` in the spec's words: four predicates and an
ordered rule list, first match wins. -/
def detect_case_described (U : UnicodePrims) (s : Str) : Case :=
  match s with
  | [] => Case.Lower
  | first_char :: rest =>
    let firstIsLower := !(U.isUpper first_char)
    let firstIsUpper := !(U.isLower first_char)
    let restIsLower := rest.all (fun c => !(U.isUpper c))
    let restIsUpper := rest.all (fun c => !(U.isLower c))
    if firstIsLower && restIsLower then Case.Lower
    else if firstIsUpper && restIsLower then Case.Sentence
    else if firstIsUpper && restIsUpper then Case.Upper
    else Case.Mixed

/-- What each case mapping makes of a trailing segment: lowercased under
`Lower` and `Sentence`, uppercased under `Upper`, untouched under `Mixed`. -/
def case_adjusted (U : UnicodePrims) (case : Case) (suf : Str) : Str :=
  match case with
  | Case.Lower => U.toLower suf
  | Case.Upper => U.toUpper suf
  | Case.Sentence => U.toLower suf
  | Case.Mixed => suf

/-! Properties of the consonant-prefix scan loop. -/

/-- Past the end of the grapheme list the classification is `Empty`, so
`has_consonant_at` fails there. -/
theorem has_consonant_at_oob (U : UnicodePrims) (gs : List Str) (i : Nat)
    (h : gs.length ≤ i) : has_consonant_at U gs i = false := by
  have hget : gs[i]? = none := List.getElem?_eq_none h
  simp [has_consonant_at, get_char_type_at, get_first_nfd_char_of_grapheme_at, hget]

/-- The scan never moves backwards. -/
theorem scanFrom_ge (U : UnicodePrims) (gs : List Str) :
    ∀ fuel i, i ≤ scanFrom U gs fuel i := by
  intro fuel
  induction fuel with
  | zero => intro i; exact Nat.le_refl i
  | succ f ih =>
    intro i
    simp only [scanFrom]
    by_cases h : has_consonant_at U gs i = true
    · simp only [h, if_true]
      exact Nat.le_trans (Nat.le_succ i) (ih (i + 1))
    · simp only [Bool.not_eq_true] at h
      simp [h]

/-- The scan result never exceeds both its start and the list length. -/
theorem scanFrom_le (U : UnicodePrims) (gs : List Str) :
    ∀ fuel i, scanFrom U gs fuel i ≤ max i gs.length := by
  intro fuel
  induction fuel with
  | zero => intro i; exact Nat.le_max_left i gs.length
  | succ f ih =>
    intro i
    simp only [scanFrom]
    by_cases h : has_consonant_at U gs i = true
    · simp only [h, if_true]
      have hlt : i < gs.length := by
        by_contra hge
        rw [has_consonant_at_oob U gs i (Nat.le_of_not_lt hge)] at h
        exact Bool.false_ne_true h
      have := ih (i + 1)
      have hmax : max (i + 1) gs.length = gs.length := Nat.max_eq_right hlt
      rw [hmax] at this
      exact Nat.le_trans this (Nat.le_max_right i gs.length)
    · simp only [Bool.not_eq_true] at h
      simp only [h, Bool.false_eq_true, if_false]
      exact Nat.le_max_left i gs.length

/-- With enough fuel, the scan stops at a position where `has_consonant_at`
fails: the while loop genuinely exits. -/
theorem scanFrom_stops (U : UnicodePrims) (gs : List Str) :
    ∀ fuel i, gs.length + 1 ≤ i + fuel →
      has_consonant_at U gs (scanFrom U gs fuel i) = false := by
  intro fuel
  induction fuel with
  | zero =>
    intro i h
    simp only [Nat.add_zero] at h
    exact has_consonant_at_oob U gs i (Nat.le_of_succ_le h)
  | succ f ih =>
    intro i h
    simp only [scanFrom]
    by_cases hc : has_consonant_at U gs i = true
    · simp only [hc, if_true]
      exact ih (i + 1) (by omega)
    · simp only [Bool.not_eq_true] at hc
      simp [hc]

/-- Every position the scan passes over satisfies `has_consonant_at`. -/
theorem scanFrom_min (U : UnicodePrims) (gs : List Str) :
    ∀ fuel i j, i ≤ j → j < scanFrom U gs fuel i →
      has_consonant_at U gs j = true := by
  intro fuel
  induction fuel with
  | zero =>
    intro i j hij hj
    simp only [scanFrom] at hj
    omega
  | succ f ih =>
    intro i j hij hj
    simp only [scanFrom] at hj
    by_cases hc : has_consonant_at U gs i = true
    · simp only [hc, if_true] at hj
      by_cases hji : j = i
      · rw [hji]; exact hc
      · exact ih (i + 1) j (by omega) hj
    · simp only [Bool.not_eq_true] at hc
      simp only [hc, Bool.false_eq_true, if_false] at hj
      omega

/-- A boolean predicate on naturals has at most one minimal failure point at
or after a start index. -/
theorem first_failure_unique (p : Nat → Bool) (i n1 n2 : Nat)
    (h1 : p n1 = false) (h1min : ∀ j, i ≤ j → j < n1 → p j = true)
    (h1ge : i ≤ n1)
    (h2 : p n2 = false) (h2min : ∀ j, i ≤ j → j < n2 → p j = true)
    (h2ge : i ≤ n2) : n1 = n2 := by
  rcases Nat.lt_trichotomy n1 n2 with h | h | h
  · have := h2min n1 h1ge h
    rw [h1] at this
    exact absurd this (by simp)
  · exact h
  · have := h1min n2 h2ge h
    rw [h2] at this
    exact absurd this (by simp)

/-- Fuel irrelevance: any fuel at least `gs.length + 1` computes the same
scan result, so the fuelled definition is the while loop's exact value. -/
theorem scanFrom_fuel_ge (U : UnicodePrims) (gs : List Str) (fuel : Nat)
    (h : gs.length + 1 ≤ fuel) :
    scanFrom U gs fuel 0 = consonant_prefix_length U gs := by
  apply first_failure_unique (has_consonant_at U gs) 0
  · exact scanFrom_stops U gs fuel 0 (by omega)
  · exact fun j hj hlt => scanFrom_min U gs fuel 0 j hj hlt
  · exact scanFrom_ge U gs fuel 0
  · exact scanFrom_stops U gs (gs.length + 1) 0 (by omega)
  · exact fun j hj hlt => scanFrom_min U gs (gs.length + 1) 0 j hj hlt
  · exact scanFrom_ge U gs (gs.length + 1) 0

/-- The consonant-prefix length is in bounds for the grapheme slices. -/
theorem consonant_prefix_length_le (U : UnicodePrims) (gs : List Str) :
    consonant_prefix_length U gs ≤ gs.length := by
  have := scanFrom_le U gs (gs.length + 1) 0
  simpa [consonant_prefix_length] using this

/-- The scan stops exactly at the first failing index. -/
theorem consonant_prefix_length_spec (U : UnicodePrims) (gs : List Str) :
    has_consonant_at U gs (consonant_prefix_length U gs) = false ∧
    ∀ j, j < consonant_prefix_length U gs → has_consonant_at U gs j = true := by
  constructor
  · exact scanFrom_stops U gs (gs.length + 1) 0 (by omega)
  · exact fun j hj => scanFrom_min U gs (gs.length + 1) 0 j (Nat.zero_le j) hj

/-- Claim C1: for every word unit that is not skipped and every configuration
`(c, v)`, the scan position `N` is the least index at which `has_consonant_at`
fails, where `has_consonant_at i` holds exactly when grapheme `i` classifies
as `Consonant`, or classifies as `Ambiguous` with grapheme `i + 1` classifying
as `Vowel` (false for `Vowel`, `NonLatin`, `Empty`); if `N = 0` the uncased
result is the unit followed by `v`, otherwise it is graphemes `N..` then
graphemes `0..N` then `c`; and the final output is `to_case` of this uncased
result under `detect_case` of the original unit. -/
theorem claim_c1 (U : UnicodePrims) (T : PigLatinTransformer) (s : Str)
    (h : should_skip_word U s = false) :
    (has_consonant_at U (U.graphemes s) (consonant_prefix_length U (U.graphemes s)) = false ∧
      ∀ j, j < consonant_prefix_length U (U.graphemes s) →
        has_consonant_at U (U.graphemes s) j = true) ∧
    (∀ i, has_consonant_at U (U.graphemes s) i = true ↔
        (get_char_type_at U (U.graphemes s) i = CharType.Consonant ∨
          (get_char_type_at U (U.graphemes s) i = CharType.Ambiguous ∧
            get_char_type_at U (U.graphemes s) (i + 1) = CharType.Vowel))) ∧
    word_to_case_matched_pig_latin U T s =
      to_case U
        (if consonant_prefix_length U (U.graphemes s) = 0 then s ++ T.vowel_suffix
          else ((U.graphemes s).drop (consonant_prefix_length U (U.graphemes s))).flatten ++
            ((U.graphemes s).take (consonant_prefix_length U (U.graphemes s))).flatten ++
            T.consonant_suffix)
        (detect_case U s) := by
  refine ⟨consonant_prefix_length_spec U (U.graphemes s), ?_, ?_⟩
  · intro i
    unfold has_consonant_at
    cases h1 : get_char_type_at U (U.graphemes s) i
    · simp [h1]
    · simp [h1]
    · cases h2 : get_char_type_at U (U.graphemes s) (i + 1) <;> simp [h2]
    · simp [h1]
    · simp [h1]
  · simp only [word_to_case_matched_pig_latin, h, Bool.false_eq_true, if_false]
    rfl

/-- Witness for claim C1 at the concrete skipped test "nix". -/
theorem claim_c1_witness :
    should_skip_word asciiPrims "nix".toList = false ∧
    ((has_consonant_at asciiPrims (asciiPrims.graphemes "nix".toList)
        (consonant_prefix_length asciiPrims (asciiPrims.graphemes "nix".toList)) = false ∧
      ∀ j, j < consonant_prefix_length asciiPrims (asciiPrims.graphemes "nix".toList) →
        has_consonant_at asciiPrims (asciiPrims.graphemes "nix".toList) j = true) ∧
    (∀ i, has_consonant_at asciiPrims (asciiPrims.graphemes "nix".toList) i = true ↔
        (get_char_type_at asciiPrims (asciiPrims.graphemes "nix".toList) i = CharType.Consonant ∨
          (get_char_type_at asciiPrims (asciiPrims.graphemes "nix".toList) i = CharType.Ambiguous ∧
            get_char_type_at asciiPrims (asciiPrims.graphemes "nix".toList) (i + 1) = CharType.Vowel))) ∧
    word_to_case_matched_pig_latin asciiPrims defaultTransformer "nix".toList =
      to_case asciiPrims
        (if consonant_prefix_length asciiPrims (asciiPrims.graphemes "nix".toList) = 0 then
            "nix".toList ++ defaultTransformer.vowel_suffix
          else ((asciiPrims.graphemes "nix".toList).drop
              (consonant_prefix_length asciiPrims (asciiPrims.graphemes "nix".toList))).flatten ++
            ((asciiPrims.graphemes "nix".toList).take
              (consonant_prefix_length asciiPrims (asciiPrims.graphemes "nix".toList))).flatten ++
            defaultTransformer.consonant_suffix)
        (detect_case asciiPrims "nix".toList)) :=
  ⟨by decide, claim_c1 asciiPrims defaultTransformer "nix".toList (by decide)⟩

/-- Claim C2: with the default configuration ("ay", "way"), `to_pig_latin`
maps "nix" to "ixnay", "hello world" to "ellohay orldway",
"Hello, ADORABLE world!" to "Ellohay, ADORABLEWAY orldway!", "yoga" to
"ogayay", "Ypres" to "Ypresway" and "" to ""; with configuration
("yay", "-hay") it maps "Hello, egg!" to "Ellohyay, egg-hay!". -/
theorem claim_c2 :
    to_pig_latin asciiPrims defaultTransformer "nix".toList = "ixnay".toList ∧
    to_pig_latin asciiPrims defaultTransformer "hello world".toList
      = "ellohay orldway".toList ∧
    to_pig_latin asciiPrims defaultTransformer "Hello, ADORABLE world!".toList
      = "Ellohay, ADORABLEWAY orldway!".toList ∧
    to_pig_latin asciiPrims defaultTransformer "yoga".toList = "ogayay".toList ∧
    to_pig_latin asciiPrims defaultTransformer "Ypres".toList = "Ypresway".toList ∧
    to_pig_latin asciiPrims defaultTransformer "".toList = "".toList ∧
    to_pig_latin asciiPrims ⟨"yay".toList, "-hay".toList⟩ "Hello, egg!".toList
      = "Ellohyay, egg-hay!".toList := by
  refine ⟨?_, ?_, ?_, ?_, ?_, ?_, ?_⟩ <;> decide

/-- Claim C8: `to_pig_latin` is total: the consonant-prefix scan terminates
with a value no greater than the number of graphemes (any fuel past the list
length reproduces it, so the while loop exits on its own), the grapheme-slice
split is in bounds, and the result is always the defined concatenation of the
per-unit outputs. -/
theorem claim_c8 (U : UnicodePrims) (T : PigLatinTransformer) (s : Str)
    (fuel : Nat) (h : (U.graphemes s).length + 1 ≤ fuel) :
    consonant_prefix_length U (U.graphemes s) ≤ (U.graphemes s).length ∧
    scanFrom U (U.graphemes s) fuel 0 = consonant_prefix_length U (U.graphemes s) ∧
    ((U.graphemes s).take (consonant_prefix_length U (U.graphemes s))).length
      = consonant_prefix_length U (U.graphemes s) ∧
    to_pig_latin U T s =
      ((U.splitWordBounds s).map (word_to_case_matched_pig_latin U T)).flatten := by
  refine ⟨consonant_prefix_length_le U _, scanFrom_fuel_ge U _ fuel h, ?_, rfl⟩
  rw [List.length_take]
  exact Nat.min_eq_left (consonant_prefix_length_le U _)

/-- Witness for claim C8 on "nix" with fuel 9. -/
theorem claim_c8_witness :
    (asciiPrims.graphemes "nix".toList).length + 1 ≤ 9 ∧
    (consonant_prefix_length asciiPrims (asciiPrims.graphemes "nix".toList)
        ≤ (asciiPrims.graphemes "nix".toList).length ∧
    scanFrom asciiPrims (asciiPrims.graphemes "nix".toList) 9 0
      = consonant_prefix_length asciiPrims (asciiPrims.graphemes "nix".toList) ∧
    ((asciiPrims.graphemes "nix".toList).take
        (consonant_prefix_length asciiPrims (asciiPrims.graphemes "nix".toList))).length
      = consonant_prefix_length asciiPrims (asciiPrims.graphemes "nix".toList) ∧
    to_pig_latin asciiPrims defaultTransformer "nix".toList =
      ((asciiPrims.splitWordBounds "nix".toList).map
        (word_to_case_matched_pig_latin asciiPrims defaultTransformer)).flatten) :=
  ⟨by decide, claim_c8 asciiPrims defaultTransformer "nix".toList 9 (by decide)⟩

set_option maxRecDepth 4000 in
/-- Claim C9: the three classification tables are pairwise disjoint: no
codepoint appears in more than one of `VOWELS`, `AMBIGUOUS_VOWELS` and
`CONSONANT_LIKE_PUNCTUATION`. -/
theorem claim_c9 :
    (∀ c ∈ VOWELS, c ∉ AMBIGUOUS_VOWELS ∧ c ∉ CONSONANT_LIKE_PUNCTUATION) ∧
    (∀ c ∈ AMBIGUOUS_VOWELS, c ∉ VOWELS ∧ c ∉ CONSONANT_LIKE_PUNCTUATION) ∧
    (∀ c ∈ CONSONANT_LIKE_PUNCTUATION, c ∉ VOWELS ∧ c ∉ AMBIGUOUS_VOWELS) := by
  decide

/-! Classification claims. -/

/-- The classification of a position depends only on the first codepoint of
the NFD decomposition of the grapheme there. -/
theorem get_char_type_at_congr (U : UnicodePrims) (gs1 gs2 : List Str)
    (i1 i2 : Nat)
    (h : get_first_nfd_char_of_grapheme_at U gs1 i1
      = get_first_nfd_char_of_grapheme_at U gs2 i2) :
    get_char_type_at U gs1 i1 = get_char_type_at U gs2 i2 := by
  unfold get_char_type_at
  rw [h]

/-- The classification chain on a present first codepoint never answers
`Empty`. -/
theorem classify_chain_ne_empty (U : UnicodePrims) (f : Char) :
    (if VOWELS.contains f then CharType.Vowel
      else if AMBIGUOUS_VOWELS.contains f then CharType.Ambiguous
      else if CONSONANT_LIKE_PUNCTUATION.contains f then CharType.Consonant
      else if U.isLatin f then CharType.Consonant
      else CharType.NonLatin) ≠ CharType.Empty := by
  split_ifs <;> simp

/-- Claim C3: `get_char_type_at` returns `Empty` exactly when the index is
out of range or the grapheme there is the empty string; otherwise, with `f`
the first codepoint of the grapheme's NFD decomposition, it follows the
Vowel / Ambiguous / Word-Internal-Punctuation / Latin-script decision chain;
and graphemes with the same canonical decomposition classify identically.
The hypothesis states the NFD property that a decomposition is empty only
for the empty string. -/
theorem claim_c3 (U : UnicodePrims) (gs : List Str) (i : Nat)
    (hnfd : ∀ g : Str, U.nfd g = [] ↔ g = []) :
    (get_char_type_at U gs i = CharType.Empty ↔
      (gs.length ≤ i ∨ gs[i]? = some [])) ∧
    (∀ g f, gs[i]? = some g → (U.nfd g).head? = some f →
      get_char_type_at U gs i =
        (if VOWELS.contains f then CharType.Vowel
          else if AMBIGUOUS_VOWELS.contains f then CharType.Ambiguous
          else if CONSONANT_LIKE_PUNCTUATION.contains f then CharType.Consonant
          else if U.isLatin f then CharType.Consonant
          else CharType.NonLatin)) ∧
    (∀ g1 g2 : Str, U.nfd g1 = U.nfd g2 →
      get_char_type_at U [g1] 0 = get_char_type_at U [g2] 0) := by
  refine ⟨?_, ?_, ?_⟩
  · unfold get_char_type_at
    cases hfc : get_first_nfd_char_of_grapheme_at U gs i with
    | none =>
      have hr : gs.length ≤ i ∨ gs[i]? = some [] := by
        unfold get_first_nfd_char_of_grapheme_at at hfc
        cases hget : gs[i]? with
        | none => exact Or.inl (List.getElem?_eq_none_iff.mp hget)
        | some g =>
          rw [hget] at hfc
          have hhd : (U.nfd g).head? = none := hfc
          have hg : g = [] := (hnfd g).mp (List.head?_eq_none_iff.mp hhd)
          exact Or.inr (by rw [hg])
      simp [hr]
    | some f =>
      have h1 : ¬ gs.length ≤ i := by
        intro hle
        unfold get_first_nfd_char_of_grapheme_at at hfc
        rw [List.getElem?_eq_none hle] at hfc
        cases hfc
      have h2 : gs[i]? ≠ some [] := by
        intro hget
        unfold get_first_nfd_char_of_grapheme_at at hfc
        rw [hget] at hfc
        have hhd : (U.nfd ([] : Str)).head? = some f := hfc
        rw [(hnfd []).mpr rfl] at hhd
        cases hhd
      simp only [iff_iff_implies_and_implies]
      constructor
      · intro hEq
        exact absurd hEq (classify_chain_ne_empty U f)
      · intro hr
        rcases hr with hr | hr
        · exact absurd hr h1
        · exact absurd hr h2
  · intro g f hget hhd
    have hfc : get_first_nfd_char_of_grapheme_at U gs i = some f := by
      unfold get_first_nfd_char_of_grapheme_at
      rw [hget]
      exact hhd
    unfold get_char_type_at
    rw [hfc]
  · intro g1 g2 hg
    apply get_char_type_at_congr
    show (U.nfd g1).head? = (U.nfd g2).head?
    rw [hg]

/-- Witness for claim C3 on a singleton grapheme list under the concrete
instance, whose NFD is the identity. -/
theorem claim_c3_witness :
    (∀ g : Str, asciiPrims.nfd g = [] ↔ g = []) ∧
    ((get_char_type_at asciiPrims [['a']] 0 = CharType.Empty ↔
      (([['a']] : List Str).length ≤ 0 ∨ ([['a']] : List Str)[0]? = some [])) ∧
    (∀ g f, ([['a']] : List Str)[0]? = some g → (asciiPrims.nfd g).head? = some f →
      get_char_type_at asciiPrims [['a']] 0 =
        (if VOWELS.contains f then CharType.Vowel
          else if AMBIGUOUS_VOWELS.contains f then CharType.Ambiguous
          else if CONSONANT_LIKE_PUNCTUATION.contains f then CharType.Consonant
          else if asciiPrims.isLatin f then CharType.Consonant
          else CharType.NonLatin)) ∧
    (∀ g1 g2 : Str, asciiPrims.nfd g1 = asciiPrims.nfd g2 →
      get_char_type_at asciiPrims [g1] 0 = get_char_type_at asciiPrims [g2] 0)) :=
  ⟨fun _ => Iff.rfl, claim_c3 asciiPrims [['a']] 0 (fun _ => Iff.rfl)⟩

/-! Case detection and restoration claims. -/

/-- Claim C4: `detect_case` implements the spec's ordered decision table
(empty gives `Lower`; `firstIsLower` is "first not uppercase", `firstIsUpper`
is "first not lowercase", the rest predicates are vacuously true on an empty
rest; rules Lower, Sentence, Upper, Mixed tried in that order); in particular
a single uppercase letter yields `Sentence`, not `Upper`. The hypotheses say
`c` is an uppercase, non-lowercase character. -/
theorem claim_c4 (U : UnicodePrims) (s : Str) (c : Char)
    (hc1 : U.isUpper c = true) (hc2 : U.isLower c = false) :
    detect_case U s = detect_case_described U s ∧
    detect_case U [] = Case.Lower ∧
    detect_case U [c] = Case.Sentence := by
  refine ⟨?_, rfl, ?_⟩
  · cases s with
    | nil => rfl
    | cons a l =>
      simp only [detect_case, detect_case_described]
      cases hb1 : !(U.isUpper a) <;> cases hb2 : !(U.isLower a) <;>
        cases hb3 : l.all (fun x => !(U.isUpper x)) <;>
        cases hb4 : l.all (fun x => !(U.isLower x)) <;> rfl
  · simp [detect_case, hc1, hc2]

/-- Witness for claim C4 at "hello" and the single letter 'A'. -/
theorem claim_c4_witness :
    asciiPrims.isUpper 'A' = true ∧ asciiPrims.isLower 'A' = false ∧
    (detect_case asciiPrims "hello".toList
        = detect_case_described asciiPrims "hello".toList ∧
    detect_case asciiPrims [] = Case.Lower ∧
    detect_case asciiPrims ['A'] = Case.Sentence) :=
  ⟨by decide, by decide, claim_c4 asciiPrims "hello".toList 'A' (by decide) (by decide)⟩

/-- Claim C5: `to_case` lowercases under `Lower`, uppercases under `Upper`,
returns the input unchanged under `Mixed`, and under `Sentence` uppercases
the first grapheme cluster and lowercases the rest of the string, with empty
input giving empty output. The hypotheses fix the grapheme segmentation of
the inputs. -/
theorem claim_c5 (U : UnicodePrims) (s g : Str) (tl : List Str)
    (hg0 : U.graphemes [] = []) (hgs : U.graphemes s = g :: tl) :
    to_case U s Case.Lower = U.toLower s ∧
    to_case U s Case.Upper = U.toUpper s ∧
    to_case U s Case.Mixed = s ∧
    to_case U [] Case.Sentence = [] ∧
    to_case U s Case.Sentence = U.toUpper g ++ U.toLower (s.drop g.length) := by
  refine ⟨rfl, rfl, rfl, ?_, ?_⟩
  · simp [to_case, to_sentence_case, hg0]
  · simp [to_case, to_sentence_case, hgs]

/-- Witness for claim C5 at "tEsT". -/
theorem claim_c5_witness :
    asciiPrims.graphemes [] = [] ∧
    asciiPrims.graphemes "tEsT".toList = ['t'] :: [['E'], ['s'], ['T']] ∧
    (to_case asciiPrims "tEsT".toList Case.Lower = asciiPrims.toLower "tEsT".toList ∧
    to_case asciiPrims "tEsT".toList Case.Upper = asciiPrims.toUpper "tEsT".toList ∧
    to_case asciiPrims "tEsT".toList Case.Mixed = "tEsT".toList ∧
    to_case asciiPrims [] Case.Sentence = [] ∧
    to_case asciiPrims "tEsT".toList Case.Sentence
      = asciiPrims.toUpper ['t'] ++ asciiPrims.toLower ("tEsT".toList.drop (['t'] : Str).length)) :=
  ⟨rfl, by decide,
    claim_c5 asciiPrims "tEsT".toList ['t'] [['E'], ['s'], ['T']] rfl (by decide)⟩

/-! Skip-rule claims. -/

/-- A unit the skip test accepts is returned unchanged. -/
theorem skip_unchanged (U : UnicodePrims) (T : PigLatinTransformer) (s : Str)
    (h : should_skip_word U s = true) :
    word_to_case_matched_pig_latin U T s = s := by
  simp [word_to_case_matched_pig_latin, h]

/-- Claim C6: a word unit that is empty or whose first character's script is
not Latin is passed through unchanged by the per-unit transformation, for
every configuration; hence a text all of whose units are such (whitespace,
punctuation, digits, non-Latin) passes through `to_pig_latin` verbatim. -/
theorem claim_c6 (U : UnicodePrims) (T : PigLatinTransformer) (s t : Str)
    (h : s = [] ∨ ∃ c r, s = c :: r ∧ U.isLatin c = false)
    (hseg : (U.splitWordBounds t).flatten = t)
    (hall : ∀ u ∈ U.splitWordBounds t, should_skip_word U u = true) :
    word_to_case_matched_pig_latin U T s = s ∧ to_pig_latin U T t = t := by
  constructor
  · apply skip_unchanged
    rcases h with h | ⟨c, r, hs, hc⟩
    · rw [h]; rfl
    · rw [hs]
      simp [should_skip_word, hc]
  · unfold to_pig_latin
    have hmap : ∀ l : List Str, (∀ u ∈ l, should_skip_word U u = true) →
        l.map (word_to_case_matched_pig_latin U T) = l := by
      intro l
      induction l with
      | nil => intro _; rfl
      | cons a l ih =>
        intro hl
        simp only [List.map_cons]
        rw [ih (fun u hu => hl u (List.mem_cons_of_mem a hu))]
        rw [skip_unchanged U T a (hl a (List.mem_cons_self a l))]
    rw [hmap _ hall, hseg]

/-- Witness for claim C6 at the unit " " and the text "42 !". -/
theorem claim_c6_witness :
    ((" ".toList : Str) = [] ∨ ∃ c r, (" ".toList : Str) = c :: r ∧ asciiPrims.isLatin c = false) ∧
    (asciiPrims.splitWordBounds "42 !".toList).flatten = "42 !".toList ∧
    (∀ u ∈ asciiPrims.splitWordBounds "42 !".toList, should_skip_word asciiPrims u = true) ∧
    (word_to_case_matched_pig_latin asciiPrims defaultTransformer " ".toList = " ".toList ∧
      to_pig_latin asciiPrims defaultTransformer "42 !".toList = "42 !".toList) :=
  ⟨Or.inr ⟨' ', [], rfl, by decide⟩, by decide, by decide,
    claim_c6 asciiPrims defaultTransformer " ".toList "42 !".toList
      (Or.inr ⟨' ', [], rfl, by decide⟩) (by decide) (by decide)⟩

/-! Suffix-invariant claim. -/

/-- A unit the skip test rejects is nonempty. -/
theorem skip_false_ne_nil (U : UnicodePrims) (s : Str)
    (h : should_skip_word U s = false) : s ≠ [] := by
  intro hs
  rw [hs] at h
  simp [should_skip_word] at h

/-- Applying a case mapping to `w ++ suf` with `w` nonempty yields a string
ending in the case-adjusted `suf`, provided the case-folding maps distribute
over concatenation and the first grapheme of a concatenation whose left part
is nonempty lies inside that left part. -/
theorem to_case_append_suffix (U : UnicodePrims) (w suf : Str) (case : Case)
    (hw : w ≠ [])
    (Hl : ∀ a b : Str, U.toLower (a ++ b) = U.toLower a ++ U.toLower b)
    (Hu : ∀ a b : Str, U.toUpper (a ++ b) = U.toUpper a ++ U.toUpper b)
    (Hg : ∀ a b : Str, a ≠ [] →
      ∃ g t rest, U.graphemes (a ++ b) = g :: t ∧ a = g ++ rest) :
    case_adjusted U case suf <:+ to_case U (w ++ suf) case := by
  cases case with
  | Lower =>
    simp only [to_case, case_adjusted, Hl]
    exact ⟨U.toLower w, rfl⟩
  | Upper =>
    simp only [to_case, case_adjusted, Hu]
    exact ⟨U.toUpper w, rfl⟩
  | Mixed => exact ⟨w, rfl⟩
  | Sentence =>
    obtain ⟨g, t, rest, hgr, hw2⟩ := Hg w suf hw
    simp only [to_case, case_adjusted, to_sentence_case, hgr]
    have hdrop : (w ++ suf).drop g.length = rest ++ suf := by
      rw [hw2, List.append_assoc, List.drop_left]
    rw [hdrop, Hl]
    exact ⟨U.toUpper g ++ U.toLower rest, by rw [List.append_assoc]⟩

/-- When the consonant prefix is nonempty, the flattened taken prefix is a
nonempty string (its first grapheme passed `has_consonant_at`, so it has a
first NFD codepoint and cannot be the empty grapheme). -/
theorem take_flatten_ne_nil (U : UnicodePrims) (gs : List Str)
    (hnfd : U.nfd [] = [])
    (hN : consonant_prefix_length U gs ≠ 0) :
    (gs.take (consonant_prefix_length U gs)).flatten ≠ [] := by
  have h0 : has_consonant_at U gs 0 = true :=
    (consonant_prefix_length_spec U gs).2 0 (Nat.pos_of_ne_zero hN)
  have hne : get_first_nfd_char_of_grapheme_at U gs 0 ≠ none := by
    intro hnone
    have hty : get_char_type_at U gs 0 = CharType.Empty := by
      unfold get_char_type_at
      rw [hnone]
    unfold has_consonant_at at h0
    rw [hty] at h0
    cases h0
  cases gs with
  | nil => exact absurd rfl hne
  | cons g0 rest =>
    have hhd : (U.nfd g0).head? ≠ none := by
      intro h
      apply hne
      unfold get_first_nfd_char_of_grapheme_at
      simp [h]
    have hg0 : g0 ≠ [] := by
      intro hg
      rw [hg, hnfd] at hhd
      exact hhd rfl
    obtain ⟨n, hn⟩ : ∃ n, consonant_prefix_length U (g0 :: rest) = n + 1 :=
      ⟨consonant_prefix_length U (g0 :: rest) - 1, by omega⟩
    rw [hn]
    simp [List.take_succ_cons, hg0]

/-- Claim C7: for every configuration and every transformable word unit, a
vowel-initial unit's output ends with the vowel suffix adjusted by the
unit's detected case, and a consonant-initial unit's output ends with the
consonant suffix adjusted by the unit's detected case. The hypotheses state
the standard behaviour of the external case folding (distributes over
concatenation), NFD (empty on the empty string), and grapheme segmentation
(the first grapheme of a concatenation with nonempty left part lies in the
left part). -/
theorem claim_c7 (U : UnicodePrims) (T : PigLatinTransformer) (s : Str)
    (hskip : should_skip_word U s = false)
    (hnfd : U.nfd [] = [])
    (Hl : ∀ a b : Str, U.toLower (a ++ b) = U.toLower a ++ U.toLower b)
    (Hu : ∀ a b : Str, U.toUpper (a ++ b) = U.toUpper a ++ U.toUpper b)
    (Hg : ∀ a b : Str, a ≠ [] →
      ∃ g t rest, U.graphemes (a ++ b) = g :: t ∧ a = g ++ rest) :
    (consonant_prefix_length U (U.graphemes s) = 0 →
      case_adjusted U (detect_case U s) T.vowel_suffix
        <:+ word_to_case_matched_pig_latin U T s) ∧
    (consonant_prefix_length U (U.graphemes s) ≠ 0 →
      case_adjusted U (detect_case U s) T.consonant_suffix
        <:+ word_to_case_matched_pig_latin U T s) := by
  have heq : word_to_case_matched_pig_latin U T s
      = to_case U (word_to_uncased_pig_latin U T s) (detect_case U s) := by
    simp [word_to_case_matched_pig_latin, hskip]
  constructor
  · intro hN
    rw [heq]
    have huncased : word_to_uncased_pig_latin U T s = s ++ T.vowel_suffix := by
      simp [word_to_uncased_pig_latin, hN]
    rw [huncased]
    exact to_case_append_suffix U s T.vowel_suffix _
      (skip_false_ne_nil U s hskip) Hl Hu Hg
  · intro hN
    rw [heq]
    have huncased : word_to_uncased_pig_latin U T s =
        (((U.graphemes s).drop (consonant_prefix_length U (U.graphemes s))).flatten ++
          ((U.graphemes s).take (consonant_prefix_length U (U.graphemes s))).flatten) ++
          T.consonant_suffix := by
      simp [word_to_uncased_pig_latin, hN, List.append_assoc]
    rw [huncased]
    apply to_case_append_suffix U _ _ _ ?_ Hl Hu Hg
    intro hnil
    rw [List.append_eq_nil] at hnil
    exact take_flatten_ne_nil U (U.graphemes s) hnfd hN hnil.2

/-- The concrete instance satisfies the case-folding distribution law used
by the suffix invariant. -/
theorem asciiPrims_toLower_append (a b : Str) :
    asciiPrims.toLower (a ++ b) = asciiPrims.toLower a ++ asciiPrims.toLower b := by
  simp [asciiPrims]

/-- The concrete instance satisfies the uppercase distribution law. -/
theorem asciiPrims_toUpper_append (a b : Str) :
    asciiPrims.toUpper (a ++ b) = asciiPrims.toUpper a ++ asciiPrims.toUpper b := by
  simp [asciiPrims]

/-- In the concrete instance the first grapheme of a concatenation with a
nonempty left part lies inside the left part. -/
theorem asciiPrims_first_grapheme (a b : Str) (ha : a ≠ []) :
    ∃ g t rest, asciiPrims.graphemes (a ++ b) = g :: t ∧ a = g ++ rest := by
  cases a with
  | nil => exact absurd rfl ha
  | cons c r =>
    exact ⟨[c], (r ++ b).map (fun x => [x]), r, by simp [asciiPrims], rfl⟩

/-- Witness for claim C7 at the consonant-initial word "nix". -/
theorem claim_c7_witness :
    should_skip_word asciiPrims "nix".toList = false ∧
    asciiPrims.nfd [] = [] ∧
    (∀ a b : Str, asciiPrims.toLower (a ++ b)
      = asciiPrims.toLower a ++ asciiPrims.toLower b) ∧
    (∀ a b : Str, asciiPrims.toUpper (a ++ b)
      = asciiPrims.toUpper a ++ asciiPrims.toUpper b) ∧
    (∀ a b : Str, a ≠ [] →
      ∃ g t rest, asciiPrims.graphemes (a ++ b) = g :: t ∧ a = g ++ rest) ∧
    ((consonant_prefix_length asciiPrims (asciiPrims.graphemes "nix".toList) = 0 →
      case_adjusted asciiPrims (detect_case asciiPrims "nix".toList)
          defaultTransformer.vowel_suffix
        <:+ word_to_case_matched_pig_latin asciiPrims defaultTransformer "nix".toList) ∧
    (consonant_prefix_length asciiPrims (asciiPrims.graphemes "nix".toList) ≠ 0 →
      case_adjusted asciiPrims (detect_case asciiPrims "nix".toList)
          defaultTransformer.consonant_suffix
        <:+ word_to_case_matched_pig_latin asciiPrims defaultTransformer "nix".toList)) :=
  ⟨by decide, rfl, asciiPrims_toLower_append, asciiPrims_toUpper_append,
    asciiPrims_first_grapheme,
    claim_c7 asciiPrims defaultTransformer "nix".toList (by decide) rfl
      asciiPrims_toLower_append asciiPrims_toUpper_append asciiPrims_first_grapheme⟩

/-! Word-internal punctuation skip claim. -/

set_option maxRecDepth 4000 in
/-- Claim C10: for every word unit whose first codepoint is one of the seven
word-internal punctuation marks and every configuration, the per-unit
transformation returns the unit unchanged, because the skip test inspects the
script of the first codepoint and none of these marks has script Latin (the
hypothesis `hLatin` records this Unicode script fact); yet the classifier
labels the same mark `Consonant` (hypothesis `hnfd` records that the mark is
its own NFD decomposition). -/
theorem claim_c10 (U : UnicodePrims) (T : PigLatinTransformer) (s r : Str)
    (m : Char) (hm : m ∈ CONSONANT_LIKE_PUNCTUATION) (hs : s = m :: r)
    (hLatin : U.isLatin m = false) (hnfd : (U.nfd [m]).head? = some m) :
    word_to_case_matched_pig_latin U T s = s ∧
    get_char_type_at U [[m]] 0 = CharType.Consonant := by
  have hsets : m ∉ VOWELS ∧ m ∉ AMBIGUOUS_VOWELS := by
    fin_cases hm <;> exact ⟨by decide, by decide⟩
  constructor
  · apply skip_unchanged
    rw [hs]
    simp [should_skip_word, hLatin]
  · have hfc : get_first_nfd_char_of_grapheme_at U [[m]] 0 = some m := by
      unfold get_first_nfd_char_of_grapheme_at
      simp [hnfd]
    unfold get_char_type_at
    rw [hfc]
    simp [hsets.1, hsets.2, hm]

set_option maxRecDepth 4000 in
/-- Witness for claim C10 at the unit consisting of the single right quote
mark U+2019. -/
theorem claim_c10_witness :
    '’' ∈ CONSONANT_LIKE_PUNCTUATION ∧
    ('’' :: ([] : Str)) = '’' :: [] ∧
    asciiPrims.isLatin '’' = false ∧
    (asciiPrims.nfd ['’']).head? = some '’' ∧
    (word_to_case_matched_pig_latin asciiPrims defaultTransformer ['’'] = ['’'] ∧
      get_char_type_at asciiPrims [['’']] 0 = CharType.Consonant) :=
  ⟨by decide, rfl, by decide, rfl,
    claim_c10 asciiPrims defaultTransformer ['’'] [] '’' (by decide) rfl (by decide) rfl⟩

end Porcus
